import Mathlib

/-!
Shallow embedding of the inter-worker RPC connection layer:
`CoreWorkerClientPool` (GetOrConnect / RemoveIdleClients / Disconnect and the
default unavailable-timeout callback) and `BoundedExecutor` (NeedDefaultExecutor
and Post on a boost::asio thread pool), together with theorems settling the
specification claims about them.

Modelling conventions:
- `WorkerId` is a binary string; the empty string is the invalid value checked
  by `RAY_CHECK_NE(addr_proto.worker_id(), "")`.
- A client handle is identified by a `Nat` instance id; its
  `IsIdleAfterRPCs()` method is an external oracle passed to the operations
  that query it (`idle : CoreWorkerClient → Bool`).
- The C++ `client_map_` maps `WorkerID` to a `std::list` iterator.  Its key
  set is modelled as a `List WorkerId`; the iterator value is recovered by
  looking the id up in `client_list`.  The pool invariant proved below ties
  the two together exactly as the C++ data structure does.
- Fatal `RAY_CHECK` failures are modelled as `none` results.
-/

/-- Worker identity: opaque binary string; never the empty value. -/
abbrev WorkerId := String

/-- Node identity: opaque binary string. -/
abbrev NodeId := String

/-- Opaque client handle instance identity.  Distinct factory results are
distinct instances. -/
abbrev CoreWorkerClient := Nat

/-- Peer address record (`rpc::Address`). -/
structure Address where
  worker_id : WorkerId
  raylet_id : NodeId
  ip_address : String
  port : Nat
deriving Repr, DecidableEq

/-- `CoreWorkerClientEntry`: a `{worker_id, core_worker_client}` pair stored in
the pool's LRU list. -/
structure CoreWorkerClientEntry where
  worker_id : WorkerId
  core_worker_client : CoreWorkerClient
deriving Repr, DecidableEq

/-- Pool state: `client_list_` is the LRU list, most recently used at the
front; `client_map` is the key set of the C++ `client_map_`
(`WorkerID → iterator`). -/
structure CoreWorkerClientPool where
  client_list : List CoreWorkerClientEntry
  client_map : List WorkerId
deriving Repr, DecidableEq

/-- The `worker_id` projection of an entry list. -/
def ids (l : List CoreWorkerClientEntry) : List WorkerId :=
  l.map (·.worker_id)

/-- Key-set effect of `client_map_[id] = it`: `std::map::operator[]` inserts
the key when absent and leaves the key set unchanged when present. -/
def mapInsert (id : WorkerId) (m : List WorkerId) : List WorkerId :=
  if m.contains id then m else id :: m

/-- The `while` loop of `CoreWorkerClientPool::RemoveIdleClients`, expressed on
the reversed LRU list (so the back of the list, the least recently used entry,
is at the head).  Each step inspects the least recently used remaining entry:
if its client `IsIdleAfterRPCs()`, the entry is erased from the map and popped
from the list and the walk continues; otherwise the entry is popped from the
back and re-inserted at the front (`emplace_front`, here: appended, since the
list is reversed), the map is updated via `operator[]`, and the walk stops. -/
def removeIdleClientsRev (idle : CoreWorkerClient → Bool) :
    List CoreWorkerClientEntry → List WorkerId →
    List CoreWorkerClientEntry × List WorkerId
  | [], m => ([], m)
  | e :: rest, m =>
    if idle e.core_worker_client then
      removeIdleClientsRev idle rest (m.erase e.worker_id)
    else
      (rest ++ [e], mapInsert e.worker_id m)

/-- `CoreWorkerClientPool::RemoveIdleClients`. -/
def CoreWorkerClientPool.RemoveIdleClients (idle : CoreWorkerClient → Bool)
    (p : CoreWorkerClientPool) : CoreWorkerClientPool :=
  let r := removeIdleClientsRev idle p.client_list.reverse p.client_map
  ⟨r.1.reverse, r.2⟩

/-- Result of `CoreWorkerClientPool::GetOrConnect`, instrumented with whether
`core_worker_client_factory_` was invoked (an effect observable by the
caller-supplied factory). -/
structure GetOrConnectResult where
  client : CoreWorkerClient
  pool : CoreWorkerClientPool
  factoryInvoked : Bool
deriving Repr, DecidableEq

/-- `CoreWorkerClientPool::GetOrConnect`.  `none` models the fatal
`RAY_CHECK_NE(addr_proto.worker_id(), "")`.  After the opportunistic
`RemoveIdleClients`, the id is looked up in `client_map_`; on a hit the entry
is spliced to the front of the LRU list, otherwise a new entry is built from
the factory and pushed at the front; either way `client_map_[id]` is set to
the new front iterator. -/
def CoreWorkerClientPool.GetOrConnect (factory : Address → CoreWorkerClient)
    (idle : CoreWorkerClient → Bool) (p : CoreWorkerClientPool)
    (addr : Address) : Option GetOrConnectResult :=
  if addr.worker_id = "" then none
  else
    let p1 := p.RemoveIdleClients idle
    let id := addr.worker_id
    let found : Option CoreWorkerClientEntry :=
      if p1.client_map.contains id then
        p1.client_list.find? (fun e => e.worker_id == id)
      else none
    match found with
    | some e =>
      some { client := e.core_worker_client
             pool := ⟨e :: p1.client_list.eraseP (fun x => x.worker_id == id),
                      mapInsert id p1.client_map⟩
             factoryInvoked := false }
    | none =>
      some { client := factory addr
             pool := ⟨⟨id, factory addr⟩ :: p1.client_list,
                      mapInsert id p1.client_map⟩
             factoryInvoked := true }

/-- `CoreWorkerClientPool::Disconnect`: look the id up in `client_map_`; if
absent return, otherwise erase the entry from the list (via the stored
iterator) and erase the key from the map. -/
def CoreWorkerClientPool.Disconnect (p : CoreWorkerClientPool)
    (id : WorkerId) : CoreWorkerClientPool :=
  if p.client_map.contains id then
    ⟨p.client_list.eraseP (fun e => e.worker_id == id), p.client_map.erase id⟩
  else p

/-- The pool invariant: the map's key set is (as a multiset) exactly the
list's worker-id sequence, and the worker ids in the list are pairwise
distinct. -/
def PoolInv (p : CoreWorkerClientPool) : Prop :=
  p.client_map.Perm (ids p.client_list) ∧ (ids p.client_list).Nodup

/-- A public pool operation, with the external inputs it consumes: the
injected factory and the `IsIdleAfterRPCs` oracle at the time of the call. -/
inductive PoolOp where
  | getOrConnect (factory : Address → CoreWorkerClient)
      (idle : CoreWorkerClient → Bool) (addr : Address)
  | disconnect (id : WorkerId)

/-- Apply one operation to the pool.  A `GetOrConnect` that fails its fatal
check aborts the process; that case keeps the state unchanged. -/
def PoolOp.apply (p : CoreWorkerClientPool) : PoolOp → CoreWorkerClientPool
  | .getOrConnect f i a =>
    match CoreWorkerClientPool.GetOrConnect f i p a with
    | some r => r.pool
    | none => p
  | .disconnect id => p.Disconnect id

/-- Run a sequence of pool operations. -/
def runOps (p : CoreWorkerClientPool) (ops : List PoolOp) :
    CoreWorkerClientPool :=
  ops.foldl PoolOp.apply p

/-- The freshly constructed, empty pool. -/
def emptyPool : CoreWorkerClientPool := ⟨[], []⟩

/-- An operation that is not a `GetOrConnect` for worker id `w`. -/
def PoolOp.avoids (w : WorkerId) : PoolOp → Prop
  | .getOrConnect _ _ a => a.worker_id ≠ w
  | .disconnect _ => True

/-- `GcsNodeInfo` fields consumed by the liveness callback. -/
structure GcsNodeInfo where
  node_manager_address : String
  node_manager_port : Nat
deriving Repr, DecidableEq

/-- Outcome of the asynchronous `IsLocalWorkerDead` raylet RPC: the completion
handler receives a status and a reply carrying `is_dead`. -/
inductive ProbeOutcome where
  | statusNotOk
  | ok (is_dead : Bool)
deriving Repr, DecidableEq

/-- Externally observable actions of one run of the unavailable-timeout
callback. -/
structure CallbackActions where
  disconnected : Bool
  probed : Bool
deriving Repr, DecidableEq

/-- One run of the closure built by
`CoreWorkerClientPool::GetDefaultUnavailableTimeoutCallback`, given its
environment: whether the GCS node-change subscription is active (the
`RAY_CHECK`, fatal when false, modelled as `none`), the result of
`Nodes().Get(node_id, filter_dead_nodes=true)`, and the raylet probe outcome
(the status and reply the `IsLocalWorkerDead` completion handler receives) as
a function of the node manager address and port the raylet client was built
from.  Returns the actions taken and the resulting pool. -/
def CoreWorkerClientPool.GetDefaultUnavailableTimeoutCallback (subscribed : Bool)
    (node_info : Option GcsNodeInfo) (probe : String → Nat → ProbeOutcome)
    (p : CoreWorkerClientPool) (worker_id : WorkerId) :
    Option (CallbackActions × CoreWorkerClientPool) :=
  if !subscribed then none
  else
    match node_info with
    | none => some (⟨true, false⟩, p.Disconnect worker_id)
    | some ni =>
      match probe ni.node_manager_address ni.node_manager_port with
      | .statusNotOk => some (⟨false, true⟩, p)
      | .ok true => some (⟨true, true⟩, p.Disconnect worker_id)
      | .ok false => some (⟨false, true⟩, p)

/-- State of a `boost::asio::thread_pool`: the number of worker threads fixed
at construction, the queue of posted handlers not yet picked up by a worker,
and the number of handlers currently executing. -/
structure ThreadPool where
  num_threads : Nat
  queue : List Nat
  running : Nat
deriving Repr, DecidableEq

/-- `boost::asio::post`: append the handler to the pool's queue and return
immediately.  It never blocks and never inspects occupancy. -/
def ThreadPool.post (tp : ThreadPool) (fn : Nat) : ThreadPool :=
  { tp with queue := tp.queue ++ [fn] }

/-- A worker thread picks up the next queued handler, possible only when a
slot is free (fewer than `num_threads` handlers executing). -/
def ThreadPool.startNext (tp : ThreadPool) : ThreadPool :=
  if tp.running < tp.num_threads then
    match tp.queue with
    | [] => tp
    | _ :: rest => { tp with queue := rest, running := tp.running + 1 }
  else tp

/-- `BoundedExecutor`: wraps the thread pool. -/
structure BoundedExecutor where
  pool_ : ThreadPool
deriving Repr, DecidableEq

/-- `BoundedExecutor::NeedDefaultExecutor` (argument is an `int32_t`). -/
def BoundedExecutor.NeedDefaultExecutor (max_concurrency_in_default_group : Int)
    (has_other_concurrency_groups : Bool) : Bool :=
  if max_concurrency_in_default_group = 0 then false
  else decide (max_concurrency_in_default_group > 1) ||
    has_other_concurrency_groups

/-- Modelled from the spec: the constructor body `BoundedExecutor(int
max_concurrency)` is not among the sources (only its declaration is); per the
spec it builds an underlying thread pool of exactly `max_concurrency` worker
threads, initially with nothing queued or running. -/
def BoundedExecutor.make (max_concurrency : Nat) : BoundedExecutor :=
  ⟨⟨max_concurrency, [], 0⟩⟩

/-- `BoundedExecutor::Post`: `boost::asio::post(*pool_, std::move(fn))`. -/
def BoundedExecutor.Post (e : BoundedExecutor) (fn : Nat) : BoundedExecutor :=
  ⟨e.pool_.post fn⟩

/-- Post the closures `0, 1, ..., n-1` in order. -/
def postN (e : BoundedExecutor) : Nat → BoundedExecutor
  | 0 => e
  | n + 1 => (postN e n).Post n

/-! ## Basic lemmas -/

theorem ids_nil : ids [] = [] := rfl

theorem ids_cons (e : CoreWorkerClientEntry) (l : List CoreWorkerClientEntry) :
    ids (e :: l) = e.worker_id :: ids l := rfl

theorem ids_append (l₁ l₂ : List CoreWorkerClientEntry) :
    ids (l₁ ++ l₂) = ids l₁ ++ ids l₂ :=
  List.map_append _ _ _

theorem ids_reverse (l : List CoreWorkerClientEntry) :
    ids l.reverse = (ids l).reverse :=
  List.map_reverse _ _

theorem mem_ids_iff {w : WorkerId} {l : List CoreWorkerClientEntry} :
    w ∈ ids l ↔ ∃ e ∈ l, e.worker_id = w := by
  simp [ids]

theorem contains_iff_mem {m : List WorkerId} {x : WorkerId} :
    m.contains x = true ↔ x ∈ m := by
  simp

/-! ## Claim theorems: bounded executor -/

/-- C5: `NeedDefaultExecutor(max_concurrency_in_default_group,
has_other_concurrency_groups)` returns false if
`max_concurrency_in_default_group == 0`, and otherwise returns true iff
either `max_concurrency_in_default_group > 1` or another concurrency group
exists. -/
theorem claim_C5 (m : Int) (hog : Bool) :
    (m = 0 → BoundedExecutor.NeedDefaultExecutor m hog = false) ∧
    (m ≠ 0 → (BoundedExecutor.NeedDefaultExecutor m hog = true ↔
      1 < m ∨ hog = true)) := by
  constructor
  · intro h
    simp [BoundedExecutor.NeedDefaultExecutor, h]
  · intro h
    simp [BoundedExecutor.NeedDefaultExecutor, h]

/-- C5 witness: the theorem instantiated at concrete inputs. -/
theorem claim_C5_witness :
    BoundedExecutor.NeedDefaultExecutor 0 true = false ∧
    BoundedExecutor.NeedDefaultExecutor 2 false = true := by
  constructor
  · exact (claim_C5 0 true).1 rfl
  · exact ((claim_C5 2 false).2 (by decide)).mpr (Or.inl (by decide))

/-- C1: the claim (Post blocks the caller while all `max_concurrency` slots
are busy, so the queue backing the pool never grows without bound) is what the
class comment in the source documents, but `BoundedExecutor::Post` is a bare
`boost::asio::post(*pool_, std::move(fn))`: it appends the closure to the
pool's queue and returns immediately, independent of how many closures are
executing.  Starting from an executor with `max_concurrency = 2` whose two
slots are both busy, every further `Post` completes at once and grows the
queue, to length `n` after `n` posts, while no free slot lets any queued
closure start. -/
theorem claim_C1 :
    (∀ (e : BoundedExecutor) (fn : Nat),
      (e.Post fn).pool_.queue = e.pool_.queue ++ [fn] ∧
      (e.Post fn).pool_.running = e.pool_.running ∧
      (e.Post fn).pool_.num_threads = e.pool_.num_threads) ∧
    (∀ n : Nat, (postN ⟨⟨2, [], 2⟩⟩ n).pool_.queue.length = n) ∧
    (postN ⟨⟨2, [], 2⟩⟩ 3).pool_.startNext = (postN ⟨⟨2, [], 2⟩⟩ 3).pool_ := by
  refine ⟨fun e fn => ⟨rfl, rfl, rfl⟩, ?_, ?_⟩
  · intro n
    induction n with
    | zero => rfl
    | succ k ih => simp [postN, BoundedExecutor.Post, ThreadPool.post, ih]
  · decide

/-! ## Claim theorems: liveness-timeout callback -/

/-- C3: with the node-change subscription active, the callback disconnects the
worker exactly when the filtered membership query returns no live node info
(and then no raylet probe is attempted), or the `IsLocalWorkerDead` probe
completes OK with `is_dead = true`; a non-OK probe status or `is_dead = false`
leaves the pool untouched. -/
theorem claim_C3 (node_info : Option GcsNodeInfo)
    (probe : String → Nat → ProbeOutcome) (p : CoreWorkerClientPool)
    (w : WorkerId) :
    ∃ acts p',
      CoreWorkerClientPool.GetDefaultUnavailableTimeoutCallback true node_info
        probe p w = some (acts, p') ∧
      (acts.disconnected = true ↔
        node_info = none ∨ ∃ ni, node_info = some ni ∧
          probe ni.node_manager_address ni.node_manager_port =
            ProbeOutcome.ok true) ∧
      (acts.probed = true ↔ node_info ≠ none) ∧
      (acts.disconnected = true → p' = p.Disconnect w) ∧
      (acts.disconnected = false → p' = p) := by
  cases node_info with
  | none =>
    exact ⟨⟨true, false⟩, p.Disconnect w, rfl, by simp, by simp,
      fun _ => rfl, fun h => by cases h⟩
  | some ni =>
    cases hpr : probe ni.node_manager_address ni.node_manager_port with
    | statusNotOk =>
      refine ⟨⟨false, true⟩, p, ?_, ?_, ?_, ?_, ?_⟩ <;>
        simp [CoreWorkerClientPool.GetDefaultUnavailableTimeoutCallback, hpr]
    | ok d =>
      cases d with
      | false =>
        refine ⟨⟨false, true⟩, p, ?_, ?_, ?_, ?_, ?_⟩ <;>
          simp [CoreWorkerClientPool.GetDefaultUnavailableTimeoutCallback, hpr]
      | true =>
        refine ⟨⟨true, true⟩, p.Disconnect w, ?_, ?_, ?_, ?_, ?_⟩ <;>
          simp [CoreWorkerClientPool.GetDefaultUnavailableTimeoutCallback, hpr]

/-! ## Claim theorems: concrete LRU eviction scenario -/

/-- C8: starting from LRU order front-to-back `[w3, w2, w1]` with clients
`3, 2, 1`, where clients `1` and `3` report idle and client `2` reports busy,
`GetOrConnect(w4)` (factory returning client `4`) evicts `w1`, promotes and
retains `w2`, retains `w3`, and inserts `w4` at the front, leaving the LRU
order front-to-back `[w4, w2, w3]`. -/
theorem claim_C8 :
    CoreWorkerClientPool.GetOrConnect (fun _ => 4) (fun c => c == 1 || c == 3)
      ⟨[⟨"w3", 3⟩, ⟨"w2", 2⟩, ⟨"w1", 1⟩], ["w3", "w2", "w1"]⟩
      ⟨"w4", "n4", "ip", 0⟩ =
    some ⟨4, ⟨[⟨"w4", 4⟩, ⟨"w2", 2⟩, ⟨"w3", 3⟩], ["w4", "w3", "w2"]⟩,
      true⟩ := by
  decide

/-! ## Claim theorems: GetOrConnect precondition -/

/-- C9: `GetOrConnect` fails its fatal `RAY_CHECK_NE(worker_id, "")` exactly
when the supplied address has an empty worker id; with a non-empty worker id
the check passes and the call returns a client. -/
theorem claim_C9 (f : Address → CoreWorkerClient) (i : CoreWorkerClient → Bool)
    (p : CoreWorkerClientPool) (a : Address) :
    (a.worker_id = "" → CoreWorkerClientPool.GetOrConnect f i p a = none) ∧
    (a.worker_id ≠ "" →
      ∃ r, CoreWorkerClientPool.GetOrConnect f i p a = some r) := by
  constructor
  · intro h
    simp [CoreWorkerClientPool.GetOrConnect, h]
  · intro h
    unfold CoreWorkerClientPool.GetOrConnect
    simp only [h, if_false, if_neg h]
    split <;> exact ⟨_, rfl⟩

/-- C9 witness: the theorem instantiated at concrete inputs, one with an
empty and one with a non-empty worker id. -/
theorem claim_C9_witness :
    CoreWorkerClientPool.GetOrConnect (fun _ => 1) (fun _ => true) emptyPool
      ⟨"", "n", "ip", 0⟩ = none ∧
    (CoreWorkerClientPool.GetOrConnect (fun _ => 1) (fun _ => true) emptyPool
      ⟨"w", "n", "ip", 0⟩).isSome = true := by
  constructor
  · exact (claim_C9 (fun _ => 1) (fun _ => true) emptyPool
      ⟨"", "n", "ip", 0⟩).1 rfl
  · obtain ⟨r, hr⟩ := (claim_C9 (fun _ => 1) (fun _ => true) emptyPool
      ⟨"w", "n", "ip", 0⟩).2 (by decide)
    rw [hr]
    rfl

/-! ## Characterization of the eviction walk -/

theorem removeIdleClientsRev_fst (idle : CoreWorkerClient → Bool)
    (rl : List CoreWorkerClientEntry) (m : List WorkerId) :
    (removeIdleClientsRev idle rl m).1 =
      match rl.dropWhile (fun e => idle e.core_worker_client) with
      | [] => []
      | b :: rest => rest ++ [b] := by
  induction rl generalizing m with
  | nil => rfl
  | cons e rest ih =>
    by_cases h : idle e.core_worker_client
    · simp [removeIdleClientsRev, List.dropWhile_cons, h, ih]
    · simp [removeIdleClientsRev, List.dropWhile_cons, h]

theorem removeIdleClientsRev_snd (idle : CoreWorkerClient → Bool)
    (rl : List CoreWorkerClientEntry) (m : List WorkerId) :
    (removeIdleClientsRev idle rl m).2 =
      match rl.dropWhile (fun e => idle e.core_worker_client) with
      | [] => (rl.takeWhile (fun e => idle e.core_worker_client)).foldl
          (fun acc e => acc.erase e.worker_id) m
      | b :: _ => mapInsert b.worker_id
          ((rl.takeWhile (fun e => idle e.core_worker_client)).foldl
            (fun acc e => acc.erase e.worker_id) m) := by
  induction rl generalizing m with
  | nil => rfl
  | cons e rest ih =>
    by_cases h : idle e.core_worker_client
    · simp [removeIdleClientsRev, List.dropWhile_cons, List.takeWhile_cons, h,
        ih]
    · simp [removeIdleClientsRev, List.dropWhile_cons, List.takeWhile_cons, h]

/-- C2: on every `GetOrConnect`, the eviction walk scans the LRU sequence from
the back toward the front.  The scanned idle candidates are exactly the
maximal all-idle segment at the back (the `takeWhile` of the reversed
sequence); each of them is removed from the sequence and its id erased from
the mapping, in scan order.  If the walk hits a candidate whose
`IsIdleAfterRPCs()` is false (the head of the `dropWhile`), that candidate is
removed from the back and re-inserted at the front, its map slot is
re-pointed (`operator[]`), and the scan stops, leaving every entry in front
of it untouched; if there is no such candidate the sequence is emptied. -/
theorem claim_C2 (idle : CoreWorkerClient → Bool) (p : CoreWorkerClientPool) :
    ((p.RemoveIdleClients idle).client_list =
      match p.client_list.reverse.dropWhile
          (fun e => idle e.core_worker_client) with
      | [] => []
      | b :: front => b :: front.reverse) ∧
    ((p.RemoveIdleClients idle).client_map =
      match p.client_list.reverse.dropWhile
          (fun e => idle e.core_worker_client) with
      | [] => (p.client_list.reverse.takeWhile
            (fun e => idle e.core_worker_client)).foldl
          (fun acc e => acc.erase e.worker_id) p.client_map
      | b :: _ => mapInsert b.worker_id
          ((p.client_list.reverse.takeWhile
              (fun e => idle e.core_worker_client)).foldl
            (fun acc e => acc.erase e.worker_id) p.client_map)) := by
  constructor
  · show (removeIdleClientsRev idle p.client_list.reverse p.client_map).1.reverse = _
    rw [removeIdleClientsRev_fst]
    cases p.client_list.reverse.dropWhile (fun e => idle e.core_worker_client) with
    | nil => rfl
    | cons b front => simp
  · show (removeIdleClientsRev idle p.client_list.reverse p.client_map).2 = _
    rw [removeIdleClientsRev_snd]

/-! ## The pool invariant is maintained -/

theorem removeIdleClientsRev_inv (idle : CoreWorkerClient → Bool)
    (rl : List CoreWorkerClientEntry) (m : List WorkerId)
    (hperm : m.Perm (ids rl)) (hnd : (ids rl).Nodup) :
    ((removeIdleClientsRev idle rl m).2).Perm
      (ids (removeIdleClientsRev idle rl m).1) ∧
    (ids (removeIdleClientsRev idle rl m).1).Nodup := by
  induction rl generalizing m with
  | nil => exact ⟨hperm, hnd⟩
  | cons e rest ih =>
    rw [ids_cons] at hperm hnd
    by_cases h : idle e.core_worker_client
    · have h1 : (m.erase e.worker_id).Perm (ids rest) := by
        have h2 := hperm.erase e.worker_id
        rwa [List.erase_cons_head] at h2
      simpa [removeIdleClientsRev, h] using
        ih (m.erase e.worker_id) h1 hnd.of_cons
    · have hmem : e.worker_id ∈ m :=
        hperm.mem_iff.mpr (List.mem_cons_self _ _)
      have hins : mapInsert e.worker_id m = m := by
        simp [mapInsert, hmem]
      have hp : (e.worker_id :: ids rest).Perm (ids rest ++ [e.worker_id]) :=
        (List.perm_append_singleton _ _).symm
      constructor
      · simpa [removeIdleClientsRev, h, hins, ids_append] using hperm.trans hp
      · simpa [removeIdleClientsRev, h, ids_append] using hp.nodup hnd

theorem RemoveIdleClients_client_list (idle : CoreWorkerClient → Bool)
    (p : CoreWorkerClientPool) :
    (p.RemoveIdleClients idle).client_list =
      (removeIdleClientsRev idle p.client_list.reverse p.client_map).1.reverse :=
  rfl

theorem RemoveIdleClients_client_map (idle : CoreWorkerClient → Bool)
    (p : CoreWorkerClientPool) :
    (p.RemoveIdleClients idle).client_map =
      (removeIdleClientsRev idle p.client_list.reverse p.client_map).2 :=
  rfl

theorem RemoveIdleClients_inv (idle : CoreWorkerClient → Bool)
    (p : CoreWorkerClientPool) (h : PoolInv p) :
    PoolInv (p.RemoveIdleClients idle) := by
  obtain ⟨hperm, hnd⟩ := h
  have h1 : p.client_map.Perm (ids p.client_list.reverse) := by
    rw [ids_reverse]
    exact hperm.trans (List.reverse_perm _).symm
  have h2 : (ids p.client_list.reverse).Nodup := by
    rw [ids_reverse]
    exact List.nodup_reverse.mpr hnd
  obtain ⟨hp, hn⟩ := removeIdleClientsRev_inv idle _ _ h1 h2
  constructor
  · rw [RemoveIdleClients_client_map, RemoveIdleClients_client_list,
      ids_reverse]
    exact hp.trans (List.reverse_perm _).symm
  · rw [RemoveIdleClients_client_list, ids_reverse]
    exact List.nodup_reverse.mpr hn

theorem ids_eraseP (l : List CoreWorkerClientEntry) (id : WorkerId) :
    ids (l.eraseP (fun x => x.worker_id == id)) = (ids l).erase id := by
  rw [List.erase_eq_eraseP', ids, ids, List.eraseP_map]
  rfl

theorem PoolInv.contains_iff {p : CoreWorkerClientPool} (h : PoolInv p)
    (id : WorkerId) :
    p.client_map.contains id = true ↔ id ∈ ids p.client_list := by
  rw [contains_iff_mem]
  exact h.1.mem_iff

theorem PoolInv.map_nodup {p : CoreWorkerClientPool} (h : PoolInv p) :
    p.client_map.Nodup :=
  h.1.symm.nodup h.2

theorem find?_entry_of_nodup {l : List CoreWorkerClientEntry}
    {e : CoreWorkerClientEntry} {id : WorkerId} (hnd : (ids l).Nodup)
    (hmem : e ∈ l) (hid : e.worker_id = id) :
    l.find? (fun x => x.worker_id == id) = some e := by
  induction l with
  | nil => cases hmem
  | cons x rest ih =>
    rw [ids_cons, List.nodup_cons] at hnd
    by_cases hx : x.worker_id = id
    · rw [List.find?_cons_of_pos _ (by simp [hx])]
      rcases List.mem_cons.mp hmem with rfl | hmr
      · rfl
      · exfalso
        apply hnd.1
        rw [hx, ← hid]
        exact List.mem_map_of_mem _ hmr
    · rw [List.find?_cons_of_neg _ (by simp [hx])]
      apply ih hnd.2
      rcases List.mem_cons.mp hmem with rfl | hmr
      · exact absurd hid hx
      · exact hmr

/-- Case analysis on a successful `GetOrConnect`: either the id was found in
the map after eviction and the matching entry was spliced to the front, or it
was not found and a freshly built entry was pushed at the front. -/
theorem GetOrConnect_cases {f : Address → CoreWorkerClient}
    {i : CoreWorkerClient → Bool} {p : CoreWorkerClientPool} {a : Address}
    {r : GetOrConnectResult}
    (hr : CoreWorkerClientPool.GetOrConnect f i p a = some r) :
    a.worker_id ≠ "" ∧
    ((∃ e, (p.RemoveIdleClients i).client_map.contains a.worker_id = true ∧
        (p.RemoveIdleClients i).client_list.find?
          (fun x => x.worker_id == a.worker_id) = some e ∧
        r = ⟨e.core_worker_client,
          ⟨e :: (p.RemoveIdleClients i).client_list.eraseP
              (fun x => x.worker_id == a.worker_id),
            mapInsert a.worker_id (p.RemoveIdleClients i).client_map⟩,
          false⟩) ∨
      (((p.RemoveIdleClients i).client_map.contains a.worker_id = false ∨
          (p.RemoveIdleClients i).client_list.find?
            (fun x => x.worker_id == a.worker_id) = none) ∧
        r = ⟨f a,
          ⟨⟨a.worker_id, f a⟩ :: (p.RemoveIdleClients i).client_list,
            mapInsert a.worker_id (p.RemoveIdleClients i).client_map⟩,
          true⟩)) := by
  unfold CoreWorkerClientPool.GetOrConnect at hr
  by_cases hw : a.worker_id = ""
  · simp [hw] at hr
  refine ⟨hw, ?_⟩
  rw [if_neg hw] at hr
  cases hc : (p.RemoveIdleClients i).client_map.contains a.worker_id with
  | false =>
    right
    simp only [hc, Bool.false_eq_true, if_false] at hr
    exact ⟨Or.inl rfl, (Option.some_inj.mp hr).symm⟩
  | true =>
    simp only [hc, if_true] at hr
    cases hf : (p.RemoveIdleClients i).client_list.find?
        (fun x => x.worker_id == a.worker_id) with
    | none =>
      right
      rw [hf] at hr
      exact ⟨Or.inr rfl, (Option.some_inj.mp hr).symm⟩
    | some e =>
      left
      rw [hf] at hr
      exact ⟨e, rfl, rfl, (Option.some_inj.mp hr).symm⟩

theorem GetOrConnect_inv {f : Address → CoreWorkerClient}
    {i : CoreWorkerClient → Bool} {p : CoreWorkerClientPool} {a : Address}
    {r : GetOrConnectResult} (h : PoolInv p)
    (hr : CoreWorkerClientPool.GetOrConnect f i p a = some r) :
    PoolInv r.pool := by
  have h1 := RemoveIdleClients_inv i p h
  obtain ⟨-, hcase⟩ := GetOrConnect_cases hr
  rcases hcase with ⟨e, hc, hf, rfl⟩ | ⟨hor, rfl⟩
  · have hewid : e.worker_id = a.worker_id := by
      have := List.find?_some hf
      simpa using this
    have hmeme : e ∈ (p.RemoveIdleClients i).client_list :=
      List.mem_of_find?_eq_some hf
    have hamem : a.worker_id ∈ ids (p.RemoveIdleClients i).client_list :=
      (h1.contains_iff a.worker_id).mp hc
    have hins : mapInsert a.worker_id (p.RemoveIdleClients i).client_map =
        (p.RemoveIdleClients i).client_map := by
      simp [mapInsert, contains_iff_mem.mp hc]
    constructor
    · show (mapInsert _ _).Perm (ids (e :: _))
      rw [hins, ids_cons, ids_eraseP, hewid]
      exact h1.1.trans (List.perm_cons_erase hamem)
    · show (ids (e :: _)).Nodup
      rw [ids_cons, ids_eraseP, hewid, List.nodup_cons]
      refine ⟨fun hmem => ?_, ?_⟩
      · exact absurd ((h1.2.mem_erase_iff).mp hmem).1 (by simp)
      · exact (List.erase_sublist _ _).nodup h1.2
  · have hc : (p.RemoveIdleClients i).client_map.contains a.worker_id =
        false := by
      rcases hor with hc | hf
      · exact hc
      · cases hc2 : (p.RemoveIdleClients i).client_map.contains a.worker_id
        · rfl
        · exfalso
          obtain ⟨e, hmeme, hewid⟩ := mem_ids_iff.mp
            ((h1.contains_iff a.worker_id).mp hc2)
          have := List.find?_eq_none.mp hf e hmeme
          simp [hewid] at this
    have hcm : a.worker_id ∉ (p.RemoveIdleClients i).client_map := by
      intro hmem
      rw [contains_iff_mem.mpr hmem] at hc
      exact Bool.noConfusion hc
    have hnmem : a.worker_id ∉ ids (p.RemoveIdleClients i).client_list :=
      fun hmem => hcm (h1.1.mem_iff.mpr hmem)
    have hins : mapInsert a.worker_id (p.RemoveIdleClients i).client_map =
        a.worker_id :: (p.RemoveIdleClients i).client_map := by
      simp [mapInsert, hcm]
    constructor
    · show (mapInsert _ _).Perm (ids (⟨a.worker_id, f a⟩ :: _))
      rw [hins, ids_cons]
      exact h1.1.cons _
    · show (ids (⟨a.worker_id, f a⟩ :: _)).Nodup
      rw [ids_cons, List.nodup_cons]
      exact ⟨hnmem, h1.2⟩

theorem Disconnect_inv {p : CoreWorkerClientPool} {id : WorkerId}
    (h : PoolInv p) : PoolInv (p.Disconnect id) := by
  unfold CoreWorkerClientPool.Disconnect
  split
  · constructor
    · show (p.client_map.erase id).Perm (ids (p.client_list.eraseP _))
      rw [ids_eraseP]
      exact h.1.erase id
    · show (ids (p.client_list.eraseP _)).Nodup
      rw [ids_eraseP]
      exact (List.erase_sublist _ _).nodup h.2
  · exact h

theorem apply_inv {p : CoreWorkerClientPool} {op : PoolOp} (h : PoolInv p) :
    PoolInv (PoolOp.apply p op) := by
  cases op with
  | getOrConnect f i a =>
    show PoolInv (match CoreWorkerClientPool.GetOrConnect f i p a with
      | some r => r.pool
      | none => p)
    cases hr : CoreWorkerClientPool.GetOrConnect f i p a with
    | some r => exact GetOrConnect_inv h hr
    | none => exact h
  | disconnect id => exact Disconnect_inv h

theorem emptyPool_inv : PoolInv emptyPool :=
  ⟨List.Perm.refl _, List.nodup_nil⟩

theorem runOps_inv (ops : List PoolOp) (p : CoreWorkerClientPool)
    (h : PoolInv p) : PoolInv (runOps p ops) := by
  induction ops generalizing p with
  | nil => exact h
  | cons op rest ih => exact ih _ (apply_inv h)

/-- C6: along every sequence of pool operations starting from the empty pool,
the client map and the client list have equal cardinality, their worker-id
key sets agree, and no two entries share a worker id. -/
theorem claim_C6 (ops : List PoolOp) :
    (runOps emptyPool ops).client_map.length =
      (runOps emptyPool ops).client_list.length ∧
    (∀ id, id ∈ (runOps emptyPool ops).client_map ↔
      id ∈ ids (runOps emptyPool ops).client_list) ∧
    (ids (runOps emptyPool ops).client_list).Nodup ∧
    (runOps emptyPool ops).client_map.Nodup := by
  have h := runOps_inv ops emptyPool emptyPool_inv
  refine ⟨?_, fun id => h.1.mem_iff, h.2, h.map_nodup⟩
  have hlen := h.1.length_eq
  simpa [ids] using hlen

/-! ## Membership lemmas for the eviction walk and the operations -/

theorem mem_of_mem_removeIdleClientsRev_fst {idle : CoreWorkerClient → Bool}
    {rl : List CoreWorkerClientEntry} {m : List WorkerId}
    {e : CoreWorkerClientEntry}
    (h : e ∈ (removeIdleClientsRev idle rl m).1) : e ∈ rl := by
  induction rl generalizing m with
  | nil => exact absurd h (by simp [removeIdleClientsRev])
  | cons x rest ih =>
    by_cases hx : idle x.core_worker_client
    · simp only [removeIdleClientsRev, if_pos hx] at h
      exact List.mem_cons_of_mem _ (ih h)
    · simp only [removeIdleClientsRev, if_neg hx] at h
      rcases List.mem_append.mp h with hm | hm
      · exact List.mem_cons_of_mem _ hm
      · rw [List.mem_singleton.mp hm]
        exact List.mem_cons_self _ _

theorem not_mem_removeIdleClientsRev_snd {idle : CoreWorkerClient → Bool}
    {rl : List CoreWorkerClientEntry} {m : List WorkerId} {w : WorkerId}
    (hm : w ∉ m) (hl : w ∉ ids rl) :
    w ∉ (removeIdleClientsRev idle rl m).2 := by
  induction rl generalizing m with
  | nil => exact hm
  | cons e rest ih =>
    rw [ids_cons, List.mem_cons] at hl
    push_neg at hl
    by_cases hx : idle e.core_worker_client
    · simp only [removeIdleClientsRev, if_pos hx]
      exact ih (fun hmem => hm (List.mem_of_mem_erase hmem)) hl.2
    · simp only [removeIdleClientsRev, if_neg hx]
      intro hmem
      unfold mapInsert at hmem
      split at hmem
      · exact hm hmem
      · rcases List.mem_cons.mp hmem with heq | hmem2
        · exact hl.1 heq
        · exact hm hmem2

theorem mem_fst_removeIdleClientsRev_of_busy {idle : CoreWorkerClient → Bool}
    {rl : List CoreWorkerClientEntry} {m : List WorkerId}
    {x : CoreWorkerClientEntry} (hb : idle x.core_worker_client = false)
    (hx : x ∈ rl) : x ∈ (removeIdleClientsRev idle rl m).1 := by
  induction rl generalizing m with
  | nil => cases hx
  | cons e rest ih =>
    by_cases h : idle e.core_worker_client
    · have hxr : x ∈ rest := by
        rcases List.mem_cons.mp hx with rfl | hxr
        · rw [hb] at h
          exact absurd h (by simp)
        · exact hxr
      simpa only [removeIdleClientsRev, if_pos h] using ih hxr
    · simp only [removeIdleClientsRev, if_neg h]
      rcases List.mem_cons.mp hx with rfl | hxr
      · exact List.mem_append_right _ (List.mem_singleton_self _)
      · exact List.mem_append_left _ hxr

theorem not_mem_RemoveIdleClients {idle : CoreWorkerClient → Bool}
    {p : CoreWorkerClientPool} {w : WorkerId} (hm : w ∉ p.client_map)
    (hl : w ∉ ids p.client_list) :
    w ∉ (p.RemoveIdleClients idle).client_map ∧
    w ∉ ids (p.RemoveIdleClients idle).client_list := by
  constructor
  · rw [RemoveIdleClients_client_map]
    exact not_mem_removeIdleClientsRev_snd hm
      (by rwa [ids_reverse, List.mem_reverse])
  · rw [RemoveIdleClients_client_list, ids_reverse, List.mem_reverse]
    intro hmem
    obtain ⟨e, hme, hwe⟩ := mem_ids_iff.mp hmem
    exact hl (mem_ids_iff.mpr
      ⟨e, List.mem_reverse.mp (mem_of_mem_removeIdleClientsRev_fst hme), hwe⟩)

theorem not_mem_apply {p : CoreWorkerClientPool} {w : WorkerId} {op : PoolOp}
    (hm : w ∉ p.client_map) (hl : w ∉ ids p.client_list)
    (hav : op.avoids w) :
    w ∉ (PoolOp.apply p op).client_map ∧
    w ∉ ids (PoolOp.apply p op).client_list := by
  cases op with
  | disconnect id =>
    simp only [PoolOp.apply]
    by_cases hc : p.client_map.contains id = true
    · unfold CoreWorkerClientPool.Disconnect
      rw [if_pos hc]
      constructor
      · exact fun hmem => hm (List.mem_of_mem_erase hmem)
      · rw [ids_eraseP]
        exact fun hmem => hl (List.mem_of_mem_erase hmem)
    · unfold CoreWorkerClientPool.Disconnect
      rw [if_neg hc]
      exact ⟨hm, hl⟩
  | getOrConnect f i a =>
    have hav' : a.worker_id ≠ w := hav
    cases hr : CoreWorkerClientPool.GetOrConnect f i p a with
    | none => simpa only [PoolOp.apply, hr] using And.intro hm hl
    | some r =>
      simp only [PoolOp.apply, hr]
      obtain ⟨h1, h2⟩ := @not_mem_RemoveIdleClients i _ _ hm hl
      have hmins : w ∉ mapInsert a.worker_id
          (p.RemoveIdleClients i).client_map := by
        intro hmem
        unfold mapInsert at hmem
        split at hmem
        · exact h1 hmem
        · rcases List.mem_cons.mp hmem with heq | hmem2
          · exact hav' heq.symm
          · exact h1 hmem2
      obtain ⟨-, hcase⟩ := GetOrConnect_cases hr
      rcases hcase with ⟨e, hc, hf, rfl⟩ | ⟨-, rfl⟩
      · have hewid : e.worker_id = a.worker_id := by
          simpa using List.find?_some hf
        refine ⟨hmins, ?_⟩
        rw [ids_cons, hewid, ids_eraseP]
        intro hmem
        rcases List.mem_cons.mp hmem with heq | hmem2
        · exact hav' heq.symm
        · exact h2 (List.mem_of_mem_erase hmem2)
      · refine ⟨hmins, ?_⟩
        rw [ids_cons]
        intro hmem
        rcases List.mem_cons.mp hmem with heq | hmem2
        · exact hav' heq.symm
        · exact h2 hmem2

theorem not_mem_runOps {p : CoreWorkerClientPool} {w : WorkerId}
    {ops : List PoolOp} (hm : w ∉ p.client_map) (hl : w ∉ ids p.client_list)
    (hav : ∀ op ∈ ops, op.avoids w) :
    w ∉ (runOps p ops).client_map ∧ w ∉ ids (runOps p ops).client_list := by
  induction ops generalizing p with
  | nil => exact ⟨hm, hl⟩
  | cons op rest ih =>
    obtain ⟨hm1, hl1⟩ := not_mem_apply hm hl (hav op (List.mem_cons_self _ _))
    exact ih hm1 hl1 (fun o ho => hav o (List.mem_cons_of_mem _ ho))

theorem Disconnect_of_not_mem {p : CoreWorkerClientPool} {w : WorkerId}
    (h : w ∉ p.client_map) : p.Disconnect w = p := by
  unfold CoreWorkerClientPool.Disconnect
  rw [if_neg (fun hc => h (contains_iff_mem.mp hc))]

theorem not_mem_Disconnect {p : CoreWorkerClientPool} {w : WorkerId}
    (h : PoolInv p) :
    w ∉ (p.Disconnect w).client_map ∧
    w ∉ ids (p.Disconnect w).client_list := by
  unfold CoreWorkerClientPool.Disconnect
  by_cases hc : p.client_map.contains w = true
  · rw [if_pos hc]
    constructor
    · exact fun hmem =>
        absurd ((h.map_nodup.mem_erase_iff).mp hmem).1 (by simp)
    · rw [ids_eraseP]
      exact fun hmem => absurd ((h.2.mem_erase_iff).mp hmem).1 (by simp)
  · rw [if_neg hc]
    have hwm : w ∉ p.client_map := fun hmem => hc (contains_iff_mem.mpr hmem)
    exact ⟨hwm, fun hmem => hwm (h.1.mem_iff.mpr hmem)⟩

/-- C7: `Disconnect` is idempotent: with no entry for the id it is a no-op;
otherwise it removes the entry from both the mapping and the sequence.
Hence a second `Disconnect(w)` leaves the pool exactly as the first did, and
after `Disconnect(w)`, as long as no later operation is a `GetOrConnect` for
`w`, the pool holds no entry for `w`. -/
theorem claim_C7 (p : CoreWorkerClientPool) (w : WorkerId) (h : PoolInv p) :
    (p.Disconnect w).Disconnect w = p.Disconnect w ∧
    (p.client_map.contains w = false → p.Disconnect w = p) ∧
    w ∉ (p.Disconnect w).client_map ∧
    w ∉ ids (p.Disconnect w).client_list ∧
    (∀ ops : List PoolOp, (∀ op ∈ ops, op.avoids w) →
      w ∉ (runOps (p.Disconnect w) ops).client_map ∧
      w ∉ ids (runOps (p.Disconnect w) ops).client_list) := by
  obtain ⟨hnm, hnl⟩ := @not_mem_Disconnect p w h
  refine ⟨Disconnect_of_not_mem hnm, ?_, hnm, hnl, ?_⟩
  · intro hc
    exact Disconnect_of_not_mem
      (fun hmem => by rw [contains_iff_mem.mpr hmem] at hc; exact
        Bool.noConfusion hc)
  · intro ops hav
    exact not_mem_runOps hnm hnl hav

/-- C7 witness: the theorem instantiated at a concrete one-entry pool. -/
theorem claim_C7_witness :
    (CoreWorkerClientPool.Disconnect
        (CoreWorkerClientPool.Disconnect ⟨[⟨"a", 1⟩], ["a"]⟩ "a") "a" =
      CoreWorkerClientPool.Disconnect ⟨[⟨"a", 1⟩], ["a"]⟩ "a") ∧
    "a" ∉ (CoreWorkerClientPool.Disconnect
      ⟨[⟨"a", 1⟩], ["a"]⟩ "a").client_map := by
  have h := claim_C7 ⟨[⟨"a", 1⟩], ["a"]⟩ "a" ⟨by decide, by decide⟩
  exact ⟨h.1, h.2.2.1⟩

theorem eraseP_eq_filter_of_nodup {l : List CoreWorkerClientEntry}
    {id : WorkerId} (h : (ids l).Nodup) :
    l.eraseP (fun e => e.worker_id == id) =
      l.filter (fun e => !(e.worker_id == id)) := by
  induction l with
  | nil => rfl
  | cons x rest ih =>
    rw [ids_cons, List.nodup_cons] at h
    by_cases hx : x.worker_id = id
    · rw [List.eraseP_cons_of_pos (by simp [hx]),
        List.filter_cons_of_neg (by simp [hx])]
      symm
      rw [List.filter_eq_self]
      intro e hmem
      simp only [Bool.not_eq_eq_eq_not, Bool.not_true, beq_eq_false_iff_ne]
      intro heq
      apply h.1
      rw [hx, ← heq]
      exact List.mem_map_of_mem _ hmem
    · rw [List.eraseP_cons_of_neg (by simp [hx]),
        List.filter_cons_of_pos (by simp [hx]), ih h.2]

/-- C10: `Disconnect(w)` is exactly the removal of the entry for `w` from
both components: the resulting list is the original list with precisely the
entries whose id is `w` filtered out (so every other entry keeps its client
and the relative order of the remaining entries is untouched), and likewise
for the mapping's key set.  `Disconnect` takes no `IsIdleAfterRPCs` oracle at
all — it never consults idleness and performs no eviction. -/
theorem claim_C10 (p : CoreWorkerClientPool) (w : WorkerId) (h : PoolInv p) :
    (p.Disconnect w).client_list =
      p.client_list.filter (fun e => !(e.worker_id == w)) ∧
    (p.Disconnect w).client_map = p.client_map.filter (fun k => !(k == w)) := by
  unfold CoreWorkerClientPool.Disconnect
  by_cases hc : p.client_map.contains w = true
  · rw [if_pos hc]
    constructor
    · exact eraseP_eq_filter_of_nodup h.2
    · rw [h.map_nodup.erase_eq_filter w]
      rfl
  · rw [if_neg hc]
    have hwm : w ∉ p.client_map := fun hmem => hc (contains_iff_mem.mpr hmem)
    have hwl : w ∉ ids p.client_list := fun hmem => hwm (h.1.mem_iff.mpr hmem)
    constructor
    · symm
      rw [List.filter_eq_self]
      intro e hmem
      simp only [Bool.not_eq_eq_eq_not, Bool.not_true, beq_eq_false_iff_ne]
      exact fun heq => hwl (heq ▸ List.mem_map_of_mem _ hmem)
    · symm
      rw [List.filter_eq_self]
      intro k hmem
      simp only [Bool.not_eq_eq_eq_not, Bool.not_true, beq_eq_false_iff_ne]
      exact fun heq => hwm (heq ▸ hmem)

/-- C10 witness: the theorem instantiated at a concrete two-entry pool. -/
theorem claim_C10_witness :
    (CoreWorkerClientPool.Disconnect
        ⟨[⟨"a", 1⟩, ⟨"b", 2⟩], ["a", "b"]⟩ "a").client_list =
      [⟨"b", 2⟩] ∧
    (CoreWorkerClientPool.Disconnect
        ⟨[⟨"a", 1⟩, ⟨"b", 2⟩], ["a", "b"]⟩ "a").client_map = ["b"] := by
  have h := claim_C10 ⟨[⟨"a", 1⟩, ⟨"b", 2⟩], ["a", "b"]⟩ "a"
    ⟨by decide, by decide⟩
  constructor
  · rw [h.1]
    rfl
  · rw [h.2]
    rfl

theorem contains_eq_false {m : List WorkerId} {x : WorkerId} (h : x ∉ m) :
    m.contains x = false := by
  cases hc : m.contains x
  · rfl
  · exact absurd (contains_iff_mem.mp hc) h

theorem GetOrConnect_notFound {f : Address → CoreWorkerClient}
    {i : CoreWorkerClient → Bool} {p : CoreWorkerClientPool} {a : Address}
    (hw : a.worker_id ≠ "")
    (hc : (p.RemoveIdleClients i).client_map.contains a.worker_id = false) :
    CoreWorkerClientPool.GetOrConnect f i p a =
      some ⟨f a, ⟨⟨a.worker_id, f a⟩ :: (p.RemoveIdleClients i).client_list,
        mapInsert a.worker_id (p.RemoveIdleClients i).client_map⟩, true⟩ := by
  unfold CoreWorkerClientPool.GetOrConnect
  rw [if_neg hw]
  simp only [hc, Bool.false_eq_true, if_false]

theorem GetOrConnect_found {f : Address → CoreWorkerClient}
    {i : CoreWorkerClient → Bool} {p : CoreWorkerClientPool} {a : Address}
    {e : CoreWorkerClientEntry} (hw : a.worker_id ≠ "")
    (hc : (p.RemoveIdleClients i).client_map.contains a.worker_id = true)
    (hf : (p.RemoveIdleClients i).client_list.find?
      (fun x => x.worker_id == a.worker_id) = some e) :
    CoreWorkerClientPool.GetOrConnect f i p a =
      some ⟨e.core_worker_client,
        ⟨e :: (p.RemoveIdleClients i).client_list.eraseP
            (fun x => x.worker_id == a.worker_id),
          mapInsert a.worker_id (p.RemoveIdleClients i).client_map⟩,
        false⟩ := by
  unfold CoreWorkerClientPool.GetOrConnect
  rw [if_neg hw]
  simp only [hc, if_true, hf]

/-- C4 counterexample: from the empty pool, two consecutive `GetOrConnect`
for the same address with no intervening operation invoke the factory twice
when the freshly built client reports `IsIdleAfterRPCs() = true` at the
second call: the second call's opportunistic eviction walk removes the entry
before the lookup, so the claim's "factory invoked exactly once" fails. -/
theorem claim_C4_counterexample :
    ∃ r1 r2,
      CoreWorkerClientPool.GetOrConnect (fun _ => 0) (fun _ => true) emptyPool
        ⟨"w1", "n", "ip", 0⟩ = some r1 ∧
      CoreWorkerClientPool.GetOrConnect (fun _ => 0) (fun _ => true) r1.pool
        ⟨"w1", "n", "ip", 0⟩ = some r2 ∧
      r1.factoryInvoked = true ∧ r2.factoryInvoked = true := by
  refine ⟨⟨0, ⟨[⟨"w1", 0⟩], ["w1"]⟩, true⟩, ⟨0, ⟨[⟨"w1", 0⟩], ["w1"]⟩, true⟩,
    ?_, ?_, rfl, rfl⟩ <;> decide

/-- C4 (amended): starting from a pool that satisfies the invariant and holds
no entry for `a.worker_id` (non-empty), `GetOrConnect(a); GetOrConnect(a)`
with no other intervening pool operation invokes the factory exactly once —
on the first call and not on the second — and the second call returns the
same client instance, provided the client built by the first call does not
report `IsIdleAfterRPCs() = true` when the second call runs its eviction
walk (otherwise the entry is evicted first and the factory runs again, see
the counterexample). -/
theorem claim_C4 (f : Address → CoreWorkerClient)
    (i₁ i₂ : CoreWorkerClient → Bool) (p : CoreWorkerClientPool) (a : Address)
    (hinv : PoolInv p) (hw : a.worker_id ≠ "")
    (habs : a.worker_id ∉ p.client_map) (hbusy : i₂ (f a) = false) :
    ∃ r1 r2, CoreWorkerClientPool.GetOrConnect f i₁ p a = some r1 ∧
      CoreWorkerClientPool.GetOrConnect f i₂ r1.pool a = some r2 ∧
      r1.factoryInvoked = true ∧ r2.factoryInvoked = false ∧
      r2.client = r1.client := by
  have habl : a.worker_id ∉ ids p.client_list :=
    fun hm => habs (hinv.1.mem_iff.mpr hm)
  obtain ⟨h1, -⟩ := @not_mem_RemoveIdleClients i₁ _ _ habs habl
  have hc1 : (p.RemoveIdleClients i₁).client_map.contains a.worker_id =
      false := contains_eq_false h1
  have hr1 := @GetOrConnect_notFound f i₁ p a hw hc1
  have hinv1 : PoolInv (⟨⟨a.worker_id, f a⟩ ::
      (p.RemoveIdleClients i₁).client_list,
      mapInsert a.worker_id (p.RemoveIdleClients i₁).client_map⟩ :
      CoreWorkerClientPool) := by
    have := GetOrConnect_inv hinv hr1
    exact this
  have hinv2 : PoolInv ((⟨⟨a.worker_id, f a⟩ ::
      (p.RemoveIdleClients i₁).client_list,
      mapInsert a.worker_id (p.RemoveIdleClients i₁).client_map⟩ :
      CoreWorkerClientPool).RemoveIdleClients i₂) :=
    RemoveIdleClients_inv i₂ _ hinv1
  have hmem2 : (⟨a.worker_id, f a⟩ : CoreWorkerClientEntry) ∈
      ((⟨⟨a.worker_id, f a⟩ :: (p.RemoveIdleClients i₁).client_list,
        mapInsert a.worker_id (p.RemoveIdleClients i₁).client_map⟩ :
        CoreWorkerClientPool).RemoveIdleClients i₂).client_list := by
    rw [RemoveIdleClients_client_list, List.mem_reverse]
    exact mem_fst_removeIdleClientsRev_of_busy hbusy
      (List.mem_reverse.mpr (List.mem_cons_self _ _))
  have hc2 := (hinv2.contains_iff a.worker_id).mpr
    (mem_ids_iff.mpr ⟨⟨a.worker_id, f a⟩, hmem2, rfl⟩)
  have hf2 := find?_entry_of_nodup hinv2.2 hmem2 rfl
  exact ⟨_, _, hr1, GetOrConnect_found hw hc2 hf2, rfl, rfl, rfl⟩

/-- C4 witness: the amended theorem instantiated from the empty pool, with
the fresh client busy at the second call. -/
theorem claim_C4_witness :
    ∃ r1 r2,
      CoreWorkerClientPool.GetOrConnect (fun _ => 7) (fun _ => true) emptyPool
        ⟨"w1", "n", "ip", 0⟩ = some r1 ∧
      CoreWorkerClientPool.GetOrConnect (fun _ => 7) (fun _ => false) r1.pool
        ⟨"w1", "n", "ip", 0⟩ = some r2 ∧
      r1.factoryInvoked = true ∧ r2.factoryInvoked = false ∧
      r2.client = r1.client :=
  claim_C4 (fun _ => 7) (fun _ => true) (fun _ => false) emptyPool
    ⟨"w1", "n", "ip", 0⟩ emptyPool_inv (by decide)
    (by simp [emptyPool]) rfl
